import Mathlib

/-!
Verification of the glyphDJ metadata encoding pipeline (src/app.py).

Strings are modelled as `List Char` and byte sequences as `List Nat`
(each element < 256).  Every definition is translated from the Python
source; Python built-ins used by the source (`base64.b64encode`,
`str.rstrip`, `str.splitlines`, `str.join`, `str.replace`,
`str.encode`) are embedded with their documented semantics.
-/

/-- Python `sep.join(parts)`: parts joined with the separator between
consecutive elements (no leading or trailing separator). -/
def pyJoin (sep : List Char) : List (List Char) → List Char
  | [] => []
  | [x] => x
  | x :: xs => x ++ sep ++ pyJoin sep xs

/-- Python `s.rstrip(chars)`: removes every trailing character of `s`
that belongs to the given character set. -/
def rstripSet (set : List Char) (s : List Char) : List Char :=
  (s.reverse.dropWhile fun c => set.contains c).reverse

/-- The standard base64 alphabet, in index order. -/
def b64alphabet : List Char :=
  ['A', 'B', 'C', 'D', 'E', 'F', 'G', 'H', 'I', 'J', 'K', 'L', 'M',
   'N', 'O', 'P', 'Q', 'R', 'S', 'T', 'U', 'V', 'W', 'X', 'Y', 'Z',
   'a', 'b', 'c', 'd', 'e', 'f', 'g', 'h', 'i', 'j', 'k', 'l', 'm',
   'n', 'o', 'p', 'q', 'r', 's', 't', 'u', 'v', 'w', 'x', 'y', 'z',
   '0', '1', '2', '3', '4', '5', '6', '7', '8', '9', '+', '/']

/-- The alphabet character at a 6-bit index. -/
def b64chr (n : Nat) : Char := b64alphabet.getD n 'A'

/-- The 6-bit index of an alphabet character. -/
def b64val (c : Char) : Nat := b64alphabet.findIdx fun x => x == c

/-- Python `base64.b64encode` (standard alphabet, with `=` padding),
processing the byte sequence in groups of three. -/
def b64encode : List Nat → List Char
  | [] => []
  | [x] => [b64chr (x / 4), b64chr (x % 4 * 16), '=', '=']
  | [x, y] => [b64chr (x / 4), b64chr (x % 4 * 16 + y / 16), b64chr (y % 16 * 4), '=']
  | x :: y :: z :: rest =>
      b64chr (x / 4) :: b64chr (x % 4 * 16 + y / 16) ::
      b64chr (y % 16 * 4 + z / 64) :: b64chr (z % 64) :: b64encode rest

/-- Standard base64 decoding of a padded string, processing groups of
four characters; `=` marks a short final group. -/
def b64decode : List Char → List Nat
  | a :: b :: c :: d :: rest =>
      if d = '=' then
        if c = '=' then [b64val a * 4 + b64val b / 16]
        else [b64val a * 4 + b64val b / 16, b64val b % 16 * 16 + b64val c / 4]
      else
        (b64val a * 4 + b64val b / 16) :: (b64val b % 16 * 16 + b64val c / 4) ::
        (b64val c % 4 * 64 + b64val d) :: b64decode rest
  | _ => []

/-- Fuelled worker for `chunks76`; the fuel is an upper bound on the
input length, so the recursion is structural. -/
def chunksGo : Nat → List Char → List (List Char)
  | 0, _ => []
  | _, [] => []
  | Nat.succ f, c :: cs => ((c :: cs).take 76) :: chunksGo f ((c :: cs).drop 76)

/-- The list comprehension `[b64[i:i + 76] for i in range(0, len(b64), 76)]`
from src/app.py line 11: consecutive 76-character slices. -/
def chunks76 (s : List Char) : List (List Char) := chunksGo s.length s

/-- `_b64_strip_and_chunk` from src/app.py lines 8-12: base64-encode,
strip the trailing `=` padding, slice into 76-character lines, join with
newlines and append one final newline. -/
def b64_strip_and_chunk (raw_bytes : List Nat) : List Char :=
  pyJoin ['\n'] (chunks76 (rstripSet ['='] (b64encode raw_bytes))) ++ ['\n']

/-- Python single-character `str.replace`: every occurrence of `c` in
`s` is replaced by the string `r`. -/
def pyReplaceChar (c : Char) (r : List Char) (s : List Char) : List Char :=
  (s.map fun x => if x = c then r else [x]).flatten

/-- `_escape_ffmeta` from src/app.py lines 14-26: the five sequential
global replacements, backslash first, then `=`, `;`, `#`, and finally
newline to backslash followed by a real newline. -/
def escape_ffmeta (s : List Char) : List Char :=
  pyReplaceChar '\n' ['\\', '\n']
    (pyReplaceChar '#' ['\\', '#']
      (pyReplaceChar ';' ['\\', ';']
        (pyReplaceChar '=' ['\\', '=']
          (pyReplaceChar '\\' ['\\', '\\'] s))))

/-- Python line-boundary characters recognised by `str.splitlines`. -/
def isBoundary (c : Char) : Bool :=
  c == '\n' || c == '\r' || c == Char.ofNat 11 || c == Char.ofNat 12 ||
  c == Char.ofNat 28 || c == Char.ofNat 29 || c == Char.ofNat 30 ||
  c == Char.ofNat 133 || c == Char.ofNat 8232 || c == Char.ofNat 8233

/-- Prepends a character to the first line of a line list (used to
build split results back to front). -/
def consHead (c : Char) : List (List Char) → List (List Char)
  | [] => [[c]]
  | l :: ls => (c :: l) :: ls

/-- Python `str.splitlines()`: splits at every line boundary, treating
CR LF as a single boundary, discarding the boundary characters; the
empty string yields no lines and a trailing boundary adds no line. -/
def splitlines : List Char → List (List Char)
  | [] => []
  | c :: cs =>
      if c = '\r' then
        match cs with
        | [] => [[]]
        | d :: cs2 =>
            if d = '\n' then [] :: splitlines cs2 else [] :: splitlines (d :: cs2)
      else if isBoundary c then [] :: splitlines cs
      else consHead c (splitlines cs)

/-- Splitting a character list at every occurrence of a separator
character (used only to state line-length invariants of outputs). -/
def splitOnChar (sep : Char) : List Char → List (List Char)
  | [] => [[]]
  | c :: cs =>
      if c = sep then [] :: splitOnChar sep cs
      else consHead c (splitOnChar sep cs)

/-- The CSV Normalizer from src/app.py lines 88-90: split into lines,
strip trailing CR/LF, strip trailing commas, spaces and tabs, append
one comma per line, join with CR LF and append a final CR LF. -/
def normalizeCSV (csv_text : List Char) : List Char :=
  pyJoin ['\r', '\n']
    (((splitlines csv_text).map (rstripSet ['\r', '\n'])).map
      fun ln => rstripSet [',', ' ', '\t'] ln ++ [','])
  ++ ['\r', '\n']

/-- Standard UTF-8 encoding of one character. -/
def utf8Bytes (c : Char) : List Nat :=
  let n := c.toNat
  if n < 128 then [n]
  else if n < 2048 then [192 + n / 64, 128 + n % 64]
  else if n < 65536 then [224 + n / 4096, 128 + n / 64 % 64, 128 + n % 64]
  else [240 + n / 262144, 128 + n / 4096 % 64, 128 + n / 64 % 64, 128 + n % 64]

/-- Python `str.encode("utf-8")`. -/
def encodeUtf8 (s : List Char) : List Nat := (s.map utf8Bytes).flatten

/-- The ffmetadata header line from src/app.py line 110. -/
def ffmetaHeader : List Char := (";FFMETADATA1".toList)

/-- The Metadata Document Builder from src/app.py lines 110-113: the
header line, then one `KEY=escapedValue` line per pair in order, joined
with newlines with one final newline appended. -/
def buildFFMeta (pairs : List (List Char × List Char)) : List Char :=
  pyJoin ['\n']
    (ffmetaHeader :: pairs.map fun kv => kv.1 ++ '=' :: escape_ffmeta kv.2)
  ++ ['\n']

/-- The title default from src/app.py line 51:
`title = request.form.get("title") or "Glyph"` — Python `or` takes the
right operand when the field is absent or the empty string. -/
def embedTitle (t : Option (List Char)) : List Char :=
  match t with
  | none => ("Glyph".toList)
  | some s => if s = [] then ("Glyph".toList) else s

/-- The metadata mapping built in src/app.py lines 100-107, in source
order, as a list of key/value pairs. -/
def embed_metadata (title author_b64 custom1_b64 : List Char) :
    List (List Char × List Char) :=
  [(("TITLE".toList), title),
   (("ALBUM".toList), ("Glyph Tools".toList)),
   (("AUTHOR".toList), author_b64),
   (("COMPOSER".toList), ("v1-Pacman Glyph Composer".toList)),
   (("CUSTOM1".toList), custom1_b64),
   (("CUSTOM2".toList), ("26cols".toList))]

/-- Running sums of the Adler-32 checksum (RFC 1950). -/
def adler32Sums (bs : List Nat) : Nat × Nat :=
  bs.foldl (fun p b => ((p.1 + b) % 65521, (p.2 + (p.1 + b) % 65521) % 65521)) (1, 0)

/-- The Adler-32 checksum of a byte sequence (RFC 1950). -/
def adler32 (bs : List Nat) : Nat :=
  (adler32Sums bs).2 * 65536 + (adler32Sums bs).1

/-- Big-endian 4-byte rendering of a 32-bit checksum. -/
def be32 (a : Nat) : List Nat :=
  [a / 16777216 % 256, a / 65536 % 256, a / 256 % 256, a % 256]

/-- Modelled from the spec: `zlib.compress(b"", zlib.Z_BEST_COMPRESSION)`
(Python stdlib, called at src/app.py line 97 but not itself part of
src/).  Per the spec the compressor emits a zlib-format deflate stream
(RFC 1950): a two-byte header — `78 DA` at the highest compression
level — then the deflate data, which for empty input is the fixed-
Huffman empty final block `03 00`, then the big-endian Adler-32
checksum of the (empty) input. -/
def zlib_compress_empty : List Nat :=
  [0x78, 0xDA] ++ [0x03, 0x00] ++ be32 (adler32 [])

/-- The temporary files created by the /embed handler
(src/app.py lines 59, 63, 116). -/
inductive TempFile
  | tmpIn
  | tmpOgg
  | outPath
deriving DecidableEq, Repr

/-- One run of the /embed handler, abstracted to the outcomes that
steer its control flow: whether the codec check demands a transcode,
and whether the transcode and the metadata-writing ffmpeg call
succeed. -/
structure EmbedRun where
  needTranscode : Bool
  transcodeOk : Bool
  metaWriteOk : Bool
deriving DecidableEq, Repr

/-- The temporary files the /embed handler creates on a given run:
`tmp_in` and `tmp_ogg` unconditionally (src/app.py lines 59-64), and
`out_path` (line 116) only when execution gets past the transcode/copy
step — a failing transcode raises before line 116. -/
def embedCreatedFiles (r : EmbedRun) : List TempFile :=
  [TempFile.tmpIn, TempFile.tmpOgg] ++
    (if r.needTranscode && !r.transcodeOk then [] else [TempFile.outPath])

/-- The temporary files the /embed handler deletes before the request
completes: the `finally` block (src/app.py lines 129-135) unlinks only
`tmp_in`, on every path — success, transcode failure, or metadata-write
failure. -/
def embedDeletedFiles (_ : EmbedRun) : List TempFile := [TempFile.tmpIn]

/-- The temporary files still on disk when the request completes. -/
def embedLeakedFiles (r : EmbedRun) : List TempFile :=
  (embedCreatedFiles r).filter fun f => !(embedDeletedFiles r).contains f

/-- The CSV Normalizer as the claim words it: split the text into
lines, strip every trailing comma, space or tab from each line, append
exactly one comma per line, join the lines with CR LF and append one
trailing CR LF. -/
def normalizeCSV_spec (t : List Char) : List Char :=
  pyJoin ['\r', '\n']
    ((splitlines t).map fun ln => rstripSet [',', ' ', '\t'] ln ++ [','])
  ++ ['\r', '\n']

/-- One line of normalizer output: trailing CR/LF (none present),
trailing commas, spaces and tabs stripped, then one comma appended. -/
def normLine (l : List Char) : List Char :=
  rstripSet [',', ' ', '\t'] (rstripSet ['\r', '\n'] l) ++ [',']

/-- The per-character reading of the five replacement rules: what one
input character contributes to the escaped output. -/
def escChar (c : Char) : List Char :=
  if c = '\\' then ['\\', '\\']
  else if c = '=' then ['\\', '=']
  else if c = ';' then ['\\', ';']
  else if c = '#' then ['\\', '#']
  else if c = '\n' then ['\\', '\n']
  else [c]

/-- Removing every newline character from a chunk-encoded block
(the first step of the round-trip decoding in the spec). -/
def removeNewlines (s : List Char) : List Char := s.filter fun c => c != '\n'

/-- Restoring the base64 padding appropriate to the length: append
`=` characters until the length is a multiple of four. -/
def restoreB64Pad (s : List Char) : List Char :=
  s ++ List.replicate ((4 - s.length % 4) % 4) '='

example : b64_strip_and_chunk [] = ['\n'] := by decide
example : splitlines ("x,\r\ny".toList) = [("x,".toList), ['y']] := by decide
example : splitlines [] = [] := by decide
example : normalizeCSV ("x,\r\ny".toList) = ("x,\r\ny,\r\n".toList) := by decide
example : normalizeCSV [] = ['\r', '\n'] := by decide
example : normalizeCSV ['\r', '\n'] = [',', '\r', '\n'] := by decide
example : buildFFMeta [(("TITLE".toList), ("Glyph".toList))] =
    (";FFMETADATA1\nTITLE=Glyph\n".toList) := by decide
example : zlib_compress_empty = [120, 218, 3, 0, 0, 0, 0, 1] := by decide
example : b64_strip_and_chunk zlib_compress_empty = ("eNoDAAAAAAE\n".toList) := by decide
example : b64_strip_and_chunk [104, 101, 108, 108, 111] = ("aGVsbG8\n".toList) := by decide
example : escape_ffmeta ("a=b;c#d\\e\nf".toList) = ("a\\=b\\;c\\#d\\\\e\\\nf".toList) := by decide

/-! ### Facts about `rstripSet` -/

theorem mem_dropWhile {p : Char → Bool} {l : List Char} {c : Char}
    (h : c ∈ l.dropWhile p) : c ∈ l := by
  induction l with
  | nil => simp at h
  | cons a l ih =>
    rw [List.dropWhile_cons] at h
    by_cases hp : p a = true
    · simp [hp] at h
      exact List.mem_cons_of_mem a (ih h)
    · simp [hp] at h
      simpa using h

theorem dropWhile_head_false {p : Char → Bool} {l : List Char}
    (h : ∀ c ∈ l, p c = false) : l.dropWhile p = l := by
  cases l with
  | nil => rfl
  | cons a l => rw [List.dropWhile_cons, h a (List.mem_cons_self a l)]; simp

theorem dropWhile_idem (p : Char → Bool) (l : List Char) :
    (l.dropWhile p).dropWhile p = l.dropWhile p := by
  induction l with
  | nil => rfl
  | cons a l ih =>
    rw [List.dropWhile_cons]
    by_cases hp : p a = true
    · simp [hp, ih]
    · simp [hp, List.dropWhile_cons]

theorem rstripSet_append_mem {set : List Char} {c : Char} (x : List Char)
    (h : set.contains c = true) : rstripSet set (x ++ [c]) = rstripSet set x := by
  have h2 : c ∈ set := by simpa using h
  simp [rstripSet, List.dropWhile_cons, h2]

theorem rstripSet_append_not_mem {set : List Char} {c : Char} (x : List Char)
    (h : set.contains c = false) : rstripSet set (x ++ [c]) = x ++ [c] := by
  have h2 : c ∉ set := by simpa using h
  simp [rstripSet, List.dropWhile_cons, h2]

theorem rstripSet_eq_self {set x : List Char}
    (h : ∀ c ∈ x, set.contains c = false) : rstripSet set x = x := by
  rw [rstripSet, dropWhile_head_false, List.reverse_reverse]
  intro c hc
  exact h c (List.mem_reverse.mp hc)

theorem rstripSet_idem (set s : List Char) :
    rstripSet set (rstripSet set s) = rstripSet set s := by
  simp [rstripSet, dropWhile_idem]

theorem mem_rstripSet {set s : List Char} {c : Char}
    (h : c ∈ rstripSet set s) : c ∈ s := by
  rw [rstripSet, List.mem_reverse] at h
  exact List.mem_reverse.mp (mem_dropWhile h)

theorem rstripSet_append_replicate {x : List Char}
    (h : ∀ c ∈ x, c ≠ '=') (k : Nat) :
    rstripSet ['='] (x ++ List.replicate k '=') = x := by
  induction k with
  | zero =>
    rw [List.replicate_zero, List.append_nil]
    exact rstripSet_eq_self (by
      intro c hc
      simp [List.contains, h c hc])
  | succ k ih =>
    rw [List.replicate_succ', ← List.append_assoc,
      rstripSet_append_mem _ (by simp [List.contains]), ih]

/-! ### Facts about `pyJoin` -/

theorem pyJoin_cons_cons (sep x : List Char) (y : List Char) (xs : List (List Char)) :
    pyJoin sep (x :: y :: xs) = x ++ sep ++ pyJoin sep (y :: xs) := rfl

theorem pyJoin_terminated (sep x : List Char) (xs : List (List Char)) :
    pyJoin sep (x :: xs) ++ sep = ((x :: xs).map fun l => l ++ sep).flatten := by
  induction xs generalizing x with
  | nil => simp [pyJoin]
  | cons y xs ih =>
    rw [pyJoin_cons_cons, List.append_assoc, List.append_assoc, ih y]
    simp

theorem mem_pyJoin {sep : List Char} {ps : List (List Char)} {c : Char}
    (h : c ∈ pyJoin sep ps) : c ∈ sep ∨ ∃ p ∈ ps, c ∈ p := by
  induction ps with
  | nil => simp [pyJoin] at h
  | cons x xs ih =>
    cases xs with
    | nil =>
      right
      exact ⟨x, List.mem_cons_self x [], h⟩
    | cons y ys =>
      rw [pyJoin_cons_cons, List.append_assoc, List.mem_append] at h
      rcases h with h | h
      · right; exact ⟨x, List.mem_cons_self _ _, h⟩
      · rw [List.mem_append] at h
        rcases h with h | h
        · left; exact h
        · rcases ih h with h | ⟨p, hp, hc⟩
          · left; exact h
          · right; exact ⟨p, List.mem_cons_of_mem _ hp, hc⟩

/-! ### Facts about `chunksGo` and `chunks76` -/

theorem chunksGo_flatten : ∀ (f : Nat) (s : List Char), s.length ≤ f →
    (chunksGo f s).flatten = s := by
  intro f
  induction f with
  | zero =>
    intro s hs
    rw [Nat.le_zero, List.length_eq_zero] at hs
    subst hs; rfl
  | succ f ih =>
    intro s hs
    cases s with
    | nil => rfl
    | cons c cs =>
      show (((c :: cs).take 76) :: chunksGo f ((c :: cs).drop 76)).flatten = c :: cs
      rw [List.flatten_cons, ih _ (by simp at hs ⊢; omega), List.take_append_drop]

theorem chunksGo_mem_length : ∀ (f : Nat) (s : List Char) (p : List Char),
    p ∈ chunksGo f s → p.length ≤ 76 := by
  intro f
  induction f with
  | zero => intro s p hp; simp [chunksGo] at hp
  | succ f ih =>
    intro s p hp
    cases s with
    | nil => simp [chunksGo] at hp
    | cons c cs =>
      rcases List.mem_cons.mp hp with h | h
      · subst h; simp
      · exact ih _ _ h

theorem chunksGo_mem_ne_nil : ∀ (f : Nat) (s : List Char) (p : List Char),
    p ∈ chunksGo f s → p ≠ [] := by
  intro f
  induction f with
  | zero => intro s p hp; simp [chunksGo] at hp
  | succ f ih =>
    intro s p hp
    cases s with
    | nil => simp [chunksGo] at hp
    | cons c cs =>
      rcases List.mem_cons.mp hp with h | h
      · subst h; simp
      · exact ih _ _ h

theorem chunksGo_mem_subset : ∀ (f : Nat) (s : List Char) (p : List Char),
    p ∈ chunksGo f s → ∀ c ∈ p, c ∈ s := by
  intro f
  induction f with
  | zero => intro s p hp; simp [chunksGo] at hp
  | succ f ih =>
    intro s p hp c hc
    cases s with
    | nil => simp [chunksGo] at hp
    | cons a cs =>
      rcases List.mem_cons.mp hp with h | h
      · subst h
        exact List.mem_of_mem_take hc
      · exact List.mem_of_mem_drop (ih _ _ h c hc)

theorem chunksGo_ne_nil : ∀ (f : Nat) (s : List Char), s ≠ [] → s.length ≤ f →
    chunksGo f s ≠ [] := by
  intro f
  induction f with
  | zero =>
    intro s hs hf
    rw [Nat.le_zero, List.length_eq_zero] at hf
    exact absurd hf hs
  | succ f _ =>
    intro s hs _
    cases s with
    | nil => exact absurd rfl hs
    | cons c cs => simp [chunksGo]

theorem dropLast_cons_of_ne_nil {a : List Char} {l : List (List Char)}
    (h : l ≠ []) : (a :: l).dropLast = a :: l.dropLast := by
  cases l with
  | nil => exact absurd rfl h
  | cons b l => rfl

theorem chunksGo_nil : ∀ f : Nat, chunksGo f [] = [] := by
  intro f
  cases f with
  | zero => rfl
  | succ f => rfl

theorem chunksGo_dropLast : ∀ (f : Nat) (s : List Char), s.length ≤ f →
    ∀ p ∈ (chunksGo f s).dropLast, p.length = 76 := by
  intro f
  induction f with
  | zero =>
    intro s hf p hp
    rw [Nat.le_zero, List.length_eq_zero] at hf
    subst hf; simp [chunksGo] at hp
  | succ f ih =>
    intro s hf p hp
    cases s with
    | nil => simp [chunksGo] at hp
    | cons c cs =>
      have hfx : ((c :: cs).drop 76).length ≤ f := by simp at hf ⊢; omega
      have hp : p ∈ (((c :: cs).take 76) :: chunksGo f ((c :: cs).drop 76)).dropLast := hp
      by_cases hd : (c :: cs).drop 76 = []
      · rw [hd, chunksGo_nil] at hp
        simp at hp
      · rw [dropLast_cons_of_ne_nil (chunksGo_ne_nil f _ hd hfx)] at hp
        rcases List.mem_cons.mp hp with h | h
        · subst h
          have hlen : 76 < cs.length + 1 := by
            by_contra hle
            push_neg at hle
            exact hd (List.drop_eq_nil_of_le (by simp; omega))
          simp
          omega
        · exact ih _ hfx p h

/-! ### Facts about the base64 alphabet and codec -/

theorem b64chr_mem : ∀ n < 64, b64chr n ∈ b64alphabet := by decide

theorem b64val_b64chr : ∀ n < 64, b64val (b64chr n) = n := by decide

theorem eq_not_mem_alphabet : '=' ∉ b64alphabet := by decide

theorem nl_not_mem_alphabet : '\n' ∉ b64alphabet := by decide

theorem b64chr_ne_eq {n : Nat} (h : n < 64) : b64chr n ≠ '=' := by
  intro he
  exact eq_not_mem_alphabet (he ▸ b64chr_mem n h)

theorem b64encode_struct : ∀ B : List Nat, (∀ b ∈ B, b < 256) →
    ∃ body k, b64encode B = body ++ List.replicate k '=' ∧
      (∀ c ∈ body, c ∈ b64alphabet) ∧
      k = (4 - body.length % 4) % 4 ∧ k ≤ 2 := by
  intro B
  induction B using b64encode.induct with
  | case1 =>
    intro _
    exact ⟨[], 0, rfl, by simp, rfl, by omega⟩
  | case2 x =>
    intro hB
    have hx : x < 256 := hB x (by simp)
    refine ⟨[b64chr (x / 4), b64chr (x % 4 * 16)], 2, by simp [b64encode], ?_, rfl, by omega⟩
    intro c hc
    simp only [List.mem_cons, List.not_mem_nil, or_false] at hc
    rcases hc with h | h
    · exact h ▸ b64chr_mem _ (by omega)
    · exact h ▸ b64chr_mem _ (by omega)
  | case3 x y =>
    intro hB
    have hx : x < 256 := hB x (by simp)
    have hy : y < 256 := hB y (by simp)
    refine ⟨[b64chr (x / 4), b64chr (x % 4 * 16 + y / 16), b64chr (y % 16 * 4)], 1,
      by simp [b64encode], ?_, rfl, by omega⟩
    intro c hc
    simp only [List.mem_cons, List.not_mem_nil, or_false] at hc
    rcases hc with h | h | h
    · exact h ▸ b64chr_mem _ (by omega)
    · exact h ▸ b64chr_mem _ (by omega)
    · exact h ▸ b64chr_mem _ (by omega)
  | case4 x y z rest ih =>
    intro hB
    have hx : x < 256 := hB x (by simp)
    have hy : y < 256 := hB y (by simp)
    have hz : z < 256 := hB z (by simp)
    obtain ⟨body, k, he, hmem, hk, hk2⟩ := ih fun b hb => hB b (by simp [hb])
    refine ⟨b64chr (x / 4) :: b64chr (x % 4 * 16 + y / 16) ::
      b64chr (y % 16 * 4 + z / 64) :: b64chr (z % 64) :: body, k,
      by simp [b64encode, he], ?_, ?_, hk2⟩
    · intro c hc
      simp only [List.mem_cons] at hc
      rcases hc with h | h | h | h | h
      · exact h ▸ b64chr_mem _ (by omega)
      · exact h ▸ b64chr_mem _ (by omega)
      · exact h ▸ b64chr_mem _ (by omega)
      · exact h ▸ b64chr_mem _ (by omega)
      · exact hmem c h
    · simp only [List.length_cons]
      rw [hk]
      omega

theorem b64decode_b64encode : ∀ B : List Nat, (∀ b ∈ B, b < 256) →
    b64decode (b64encode B) = B := by
  intro B
  induction B using b64encode.induct with
  | case1 => intro _; rfl
  | case2 x =>
    intro hB
    have hx : x < 256 := hB x (by simp)
    simp only [b64encode, b64decode, if_pos rfl]
    rw [b64val_b64chr (x / 4) (by omega), b64val_b64chr (x % 4 * 16) (by omega)]
    simp
    omega
  | case3 x y =>
    intro hB
    have hx : x < 256 := hB x (by simp)
    have hy : y < 256 := hB y (by simp)
    have hc : b64chr (y % 16 * 4) ≠ '=' := b64chr_ne_eq (by omega)
    simp only [b64encode, b64decode, if_pos rfl, if_neg hc]
    rw [b64val_b64chr (x / 4) (by omega), b64val_b64chr (x % 4 * 16 + y / 16) (by omega),
      b64val_b64chr (y % 16 * 4) (by omega)]
    simp
    constructor
    · omega
    · omega
  | case4 x y z rest ih =>
    intro hB
    have hx : x < 256 := hB x (by simp)
    have hy : y < 256 := hB y (by simp)
    have hz : z < 256 := hB z (by simp)
    have hd : b64chr (z % 64) ≠ '=' := b64chr_ne_eq (by omega)
    have hrest := ih fun b hb => hB b (by simp [hb])
    simp only [b64encode, b64decode, if_neg hd]
    rw [b64val_b64chr (x / 4) (by omega), b64val_b64chr (x % 4 * 16 + y / 16) (by omega),
      b64val_b64chr (y % 16 * 4 + z / 64) (by omega), b64val_b64chr (z % 64) (by omega),
      hrest]
    simp
    refine ⟨by omega, by omega, by omega⟩

/-! ### Facts about `splitlines` -/

theorem splitlines_cons_crlf (cs : List Char) :
    splitlines ('\r' :: '\n' :: cs) = [] :: splitlines cs := by
  simp [splitlines]

theorem splitlines_cr_nil : splitlines ['\r'] = [[]] := by
  simp [splitlines]

theorem splitlines_cons_cr (d : Char) (cs2 : List Char) (hd : d ≠ '\n') :
    splitlines ('\r' :: d :: cs2) = [] :: splitlines (d :: cs2) := by
  simp [splitlines, hd]

theorem splitlines_cons_nb (c : Char) (cs : List Char) (h : isBoundary c = false) :
    splitlines (c :: cs) = consHead c (splitlines cs) := by
  have hr : c ≠ '\r' := by
    intro he; rw [he] at h; simp [isBoundary] at h
  rw [splitlines.eq_def]
  show (if c = '\r' then
      (match cs with
       | [] => [[]]
       | d :: cs2 =>
           if d = '\n' then [] :: splitlines cs2 else [] :: splitlines (d :: cs2))
    else if isBoundary c then [] :: splitlines cs
    else consHead c (splitlines cs)) = consHead c (splitlines cs)
  rw [if_neg hr, if_neg (by simp [h])]

theorem splitlines_cons_b (c : Char) (cs : List Char) (hb : isBoundary c = true)
    (hr : c ≠ '\r') : splitlines (c :: cs) = [] :: splitlines cs := by
  rw [splitlines.eq_def]
  show (if c = '\r' then
      (match cs with
       | [] => [[]]
       | d :: cs2 =>
           if d = '\n' then [] :: splitlines cs2 else [] :: splitlines (d :: cs2))
    else if isBoundary c then [] :: splitlines cs
    else consHead c (splitlines cs)) = [] :: splitlines cs
  rw [if_neg hr, if_pos (by simp [hb])]

theorem consHead_ne_nil (c : Char) (ls : List (List Char)) : consHead c ls ≠ [] := by
  cases ls with
  | nil => simp [consHead]
  | cons l ls => simp [consHead]

theorem splitlines_ne_nil {t : List Char} (h : t ≠ []) : splitlines t ≠ [] := by
  cases t with
  | nil => exact absurd rfl h
  | cons c cs =>
    by_cases hr : c = '\r'
    · subst hr
      cases cs with
      | nil => rw [splitlines_cr_nil]; simp
      | cons d cs2 =>
        by_cases hd : d = '\n'
        · subst hd; rw [splitlines_cons_crlf]; simp
        · rw [splitlines_cons_cr d cs2 hd]; simp
    · by_cases hb : isBoundary c
      · rw [splitlines_cons_b c cs hb hr]; simp
      · rw [splitlines_cons_nb c cs (by simpa using hb)]
        exact consHead_ne_nil c _

theorem splitlines_chars : ∀ t : List Char, ∀ l ∈ splitlines t, ∀ c ∈ l,
    isBoundary c = false := by
  intro t
  induction t using splitlines.induct with
  | case1 => intro l hl; simp [splitlines] at hl
  | case2 =>
    intro l hl c2 hc2
    rw [splitlines_cr_nil] at hl
    simp at hl
    subst hl
    simp at hc2
  | case3 cs2 ih =>
    intro l hl c2 hc2
    rw [splitlines_cons_crlf] at hl
    rcases List.mem_cons.mp hl with h | h
    · subst h; simp at hc2
    · exact ih l h c2 hc2
  | case4 d cs2 hd ih =>
    intro l hl c2 hc2
    rw [splitlines_cons_cr d cs2 hd] at hl
    rcases List.mem_cons.mp hl with h | h
    · subst h; simp at hc2
    · exact ih l h c2 hc2
  | case5 d cs2 hr hb ih =>
    intro l hl c2 hc2
    rw [splitlines_cons_b d cs2 hb hr] at hl
    rcases List.mem_cons.mp hl with h | h
    · subst h; simp at hc2
    · exact ih l h c2 hc2
  | case6 d cs2 hr hb ih =>
    intro l hl c2 hc2
    rw [splitlines_cons_nb d cs2 (by simpa using hb)] at hl
    cases hsp : splitlines cs2 with
    | nil =>
      rw [hsp] at hl
      simp [consHead] at hl
      subst hl
      rcases List.mem_singleton.mp hc2 with h
      subst h
      simpa using hb
    | cons l0 ls =>
      rw [hsp, consHead] at hl
      rcases List.mem_cons.mp hl with h | h
      · subst h
        rcases List.mem_cons.mp hc2 with h2 | h2
        · subst h2; simpa using hb
        · exact ih l0 (by rw [hsp]; exact List.mem_cons_self l0 ls) c2 h2
      · exact ih l (by rw [hsp]; exact List.mem_cons_of_mem l0 h) c2 hc2

theorem splitlines_append_crlf (x r : List Char)
    (hx : ∀ c ∈ x, isBoundary c = false) :
    splitlines (x ++ '\r' :: '\n' :: r) = x :: splitlines r := by
  induction x with
  | nil => simpa using splitlines_cons_crlf r
  | cons c x ih =>
    rw [List.cons_append,
      splitlines_cons_nb c _ (hx c (List.mem_cons_self c x)),
      ih fun a ha => hx a (List.mem_cons_of_mem c ha)]
    simp [consHead]

theorem splitlines_pyJoin : ∀ ls : List (List Char), ls ≠ [] →
    (∀ l ∈ ls, ∀ c ∈ l, isBoundary c = false) →
    splitlines (pyJoin ['\r', '\n'] ls ++ ['\r', '\n']) = ls := by
  intro ls
  induction ls with
  | nil => intro h; exact absurd rfl h
  | cons x xs ih =>
    intro _ hch
    cases xs with
    | nil =>
      show splitlines (x ++ ['\r', '\n']) = [x]
      have := splitlines_append_crlf x [] (hch x (List.mem_cons_self x []))
      simpa using this
    | cons y ys =>
      rw [pyJoin_cons_cons, List.append_assoc, List.append_assoc]
      rw [show (['\r', '\n'] ++ (pyJoin ['\r', '\n'] (y :: ys) ++ ['\r', '\n'])) =
        '\r' :: '\n' :: (pyJoin ['\r', '\n'] (y :: ys) ++ ['\r', '\n']) from rfl]
      rw [splitlines_append_crlf x _ (hch x (List.mem_cons_self x _))]
      rw [ih (by simp) fun l hl => hch l (List.mem_cons_of_mem x hl)]

/-! ### The CSV Normalizer -/

theorem contains_rn_of_not_boundary {c : Char} (h : isBoundary c = false) :
    (['\r', '\n'] : List Char).contains c = false := by
  have h1 : c ≠ '\r' := by intro he; subst he; simp [isBoundary] at h
  have h2 : c ≠ '\n' := by intro he; subst he; simp [isBoundary] at h
  simp [h1, h2]

theorem rstripSet_rn_splitlines {t l : List Char} (hl : l ∈ splitlines t) :
    rstripSet ['\r', '\n'] l = l :=
  rstripSet_eq_self fun c hc =>
    contains_rn_of_not_boundary (splitlines_chars t l hl c hc)

theorem normalizeCSV_eq_spec (t : List Char) : normalizeCSV t = normalizeCSV_spec t := by
  rw [normalizeCSV, normalizeCSV_spec, List.map_map]
  congr 2
  exact List.map_congr_left fun l hl => by
    simp [Function.comp, rstripSet_rn_splitlines hl]

theorem normalizeCSV_lines (t : List Char) :
    normalizeCSV t = pyJoin ['\r', '\n'] ((splitlines t).map normLine) ++ ['\r', '\n'] := by
  rw [normalizeCSV, List.map_map]
  rfl

theorem normLine_chars {t l : List Char} (hl : l ∈ splitlines t) :
    ∀ c ∈ normLine l, isBoundary c = false := by
  intro c hc
  rcases List.mem_append.mp hc with h | h
  · exact splitlines_chars t l hl c (mem_rstripSet (mem_rstripSet h))
  · rcases List.mem_singleton.mp h with h2
    subst h2
    simp [isBoundary]

theorem normLine_idem (l : List Char) : normLine (normLine l) = normLine l := by
  rw [normLine, normLine]
  rw [rstripSet_append_not_mem _ (by simp), rstripSet_append_mem _ (by simp),
    rstripSet_idem]

theorem splitlines_normalizeCSV {t : List Char} (ht : t ≠ []) :
    splitlines (normalizeCSV t) = (splitlines t).map normLine := by
  rw [normalizeCSV_lines]
  refine splitlines_pyJoin _ (by simpa using splitlines_ne_nil ht) ?_
  intro l hl
  rcases List.mem_map.mp hl with ⟨l0, hl0, he⟩
  exact he ▸ normLine_chars hl0

theorem normalizeCSV_idem {t : List Char} (ht : t ≠ []) :
    normalizeCSV (normalizeCSV t) = normalizeCSV t := by
  rw [normalizeCSV_lines (normalizeCSV t), splitlines_normalizeCSV ht,
    List.map_map]
  rw [show normLine ∘ normLine = normLine from funext normLine_idem]
  rw [← normalizeCSV_lines]

/-! ### The Metadata Escaper -/

theorem escape_ffmeta_append (a b : List Char) :
    escape_ffmeta (a ++ b) = escape_ffmeta a ++ escape_ffmeta b := by
  simp [escape_ffmeta, pyReplaceChar]

theorem escape_ffmeta_single (c : Char) : escape_ffmeta [c] = escChar c := by
  by_cases h1 : c = '\\'
  · subst h1; decide
  by_cases h2 : c = '='
  · subst h2; decide
  by_cases h3 : c = ';'
  · subst h3; decide
  by_cases h4 : c = '#'
  · subst h4; decide
  by_cases h5 : c = '\n'
  · subst h5; decide
  simp [escape_ffmeta, pyReplaceChar, escChar, h1, h2, h3, h4, h5]

theorem escape_ffmeta_chars (s : List Char) :
    escape_ffmeta s = (s.map escChar).flatten := by
  induction s with
  | nil => rfl
  | cons c s ih =>
    rw [show c :: s = [c] ++ s from rfl, escape_ffmeta_append,
      escape_ffmeta_single, ih]
    simp

/-! ### Lines of a joined-and-terminated output -/

theorem splitOnChar_cons_sep (sep : Char) (cs : List Char) :
    splitOnChar sep (sep :: cs) = [] :: splitOnChar sep cs := by
  simp [splitOnChar]

theorem splitOnChar_cons_ne (sep c : Char) (cs : List Char) (h : c ≠ sep) :
    splitOnChar sep (c :: cs) = consHead c (splitOnChar sep cs) := by
  simp [splitOnChar, h]

theorem splitOnChar_append_sep (sep : Char) : ∀ (p r : List Char),
    (∀ c ∈ p, c ≠ sep) →
    splitOnChar sep (p ++ sep :: r) = p :: splitOnChar sep r := by
  intro p
  induction p with
  | nil => intro r _; simpa using splitOnChar_cons_sep sep r
  | cons c p ih =>
    intro r hp
    rw [List.cons_append,
      splitOnChar_cons_ne sep c _ (hp c (List.mem_cons_self c p)),
      ih r fun a ha => hp a (List.mem_cons_of_mem c ha)]
    simp [consHead]

theorem splitOnChar_pyJoin_le : ∀ (ps : List (List Char)),
    (∀ p ∈ ps, (∀ c ∈ p, c ≠ '\n') ∧ p.length ≤ 76) →
    ∀ l ∈ splitOnChar '\n' (pyJoin ['\n'] ps ++ ['\n']), l.length ≤ 76 := by
  intro ps
  induction ps with
  | nil =>
    intro _ l hl
    have he : splitOnChar '\n' (pyJoin ['\n'] ([] : List (List Char)) ++ ['\n']) =
        [[], []] := by decide
    rw [he] at hl
    have : l = [] := by simpa using hl
    subst this; simp
  | cons x xs ih =>
    intro hp l hl
    cases xs with
    | nil =>
      have hx := hp x (List.mem_cons_self x [])
      rw [show pyJoin ['\n'] [x] ++ ['\n'] = x ++ '\n' :: [] from rfl,
        splitOnChar_append_sep '\n' x [] hx.1] at hl
      rcases List.mem_cons.mp hl with h | h
      · subst h; exact hx.2
      · have : l = [] := by simpa [splitOnChar] using h
        subst this; simp
    | cons y ys =>
      have hx := hp x (List.mem_cons_self x _)
      rw [pyJoin_cons_cons, List.append_assoc, List.append_assoc,
        show (['\n'] ++ (pyJoin ['\n'] (y :: ys) ++ ['\n'])) =
          '\n' :: (pyJoin ['\n'] (y :: ys) ++ ['\n']) from rfl,
        splitOnChar_append_sep '\n' x _ hx.1] at hl
      rcases List.mem_cons.mp hl with h | h
      · subst h; exact hx.2
      · exact ih (fun p hq => hp p (List.mem_cons_of_mem x hq)) l h

/-! ### Removing the newlines recovers the unpadded encoding -/

theorem filter_pyJoin_nl : ∀ ps : List (List Char),
    (∀ p ∈ ps, ∀ c ∈ p, c ≠ '\n') →
    (pyJoin ['\n'] ps ++ ['\n']).filter (fun c => c != '\n') = ps.flatten := by
  intro ps
  induction ps with
  | nil => intro _; decide
  | cons x xs ih =>
    intro hp
    have hx : x.filter (fun c => c != '\n') = x :=
      List.filter_eq_self.mpr fun a ha => by
        simpa using hp x (List.mem_cons_self x xs) a ha
    cases xs with
    | nil =>
      show (x ++ ['\n']).filter (fun c => c != '\n') = x ++ [].flatten
      rw [List.filter_append, hx]
      simp
    | cons y ys =>
      rw [pyJoin_cons_cons, List.append_assoc, List.append_assoc,
        List.filter_append, hx]
      rw [show (['\n'] ++ (pyJoin ['\n'] (y :: ys) ++ ['\n'])) =
        '\n' :: (pyJoin ['\n'] (y :: ys) ++ ['\n']) from rfl]
      rw [List.filter_cons_of_neg (by simp)]
      rw [ih fun p hq => hp p (List.mem_cons_of_mem x hq)]
      simp

/-! ### The chunk lemmas at the fuel actually used -/

theorem chunks76_flatten (s : List Char) : (chunks76 s).flatten = s :=
  chunksGo_flatten _ _ (Nat.le_refl _)

theorem chunks76_mem_subset {s p : List Char} (hp : p ∈ chunks76 s) :
    ∀ c ∈ p, c ∈ s :=
  chunksGo_mem_subset _ _ p hp

/-! ### Structure of the stripped encoding -/

theorem rstrip_b64encode (B : List Nat) (hB : ∀ b ∈ B, b < 256) :
    (∀ c ∈ rstripSet ['='] (b64encode B), c ∈ b64alphabet) ∧
    rstripSet ['='] (b64encode B) ++
      List.replicate ((4 - (rstripSet ['='] (b64encode B)).length % 4) % 4) '=' =
      b64encode B := by
  obtain ⟨body, k, he, hmem, hk, _⟩ := b64encode_struct B hB
  have hu : rstripSet ['='] (b64encode B) = body := by
    rw [he]
    exact rstripSet_append_replicate
      (fun c hc he2 => eq_not_mem_alphabet (he2 ▸ hmem c hc)) k
  refine ⟨fun c hc => hmem c (hu ▸ hc), ?_⟩
  rw [hu, ← hk, ← he]

/-! ### The claims -/

/-- C1.  For every byte sequence B, the Radix-64 Chunk Encoder returns
exactly the standard-alphabet base64 encoding of B with every trailing
`=` removed, split into consecutive substrings of at most 76 characters
(all but the last exactly 76, concatenating back to the whole), joined
with single newlines with exactly one trailing newline appended; for
empty B the output is a single newline; the output contains no `=` and
no line longer than 76 characters. -/
theorem c1_chunk_encoder (B : List Nat) (hB : ∀ b ∈ B, b < 256) :
    b64_strip_and_chunk B =
      pyJoin ['\n'] (chunks76 (rstripSet ['='] (b64encode B))) ++ ['\n'] ∧
    (chunks76 (rstripSet ['='] (b64encode B))).flatten =
      rstripSet ['='] (b64encode B) ∧
    (∀ p ∈ chunks76 (rstripSet ['='] (b64encode B)), p.length ≤ 76 ∧ p ≠ []) ∧
    (∀ p ∈ (chunks76 (rstripSet ['='] (b64encode B))).dropLast, p.length = 76) ∧
    '=' ∉ b64_strip_and_chunk B ∧
    (∀ l ∈ splitOnChar '\n' (b64_strip_and_chunk B), l.length ≤ 76) ∧
    (B = [] → b64_strip_and_chunk B = ['\n']) := by
  obtain ⟨hmemU, _⟩ := rstrip_b64encode B hB
  refine ⟨rfl, chunksGo_flatten _ _ (Nat.le_refl _),
    fun p hp => ⟨chunksGo_mem_length _ _ p hp, chunksGo_mem_ne_nil _ _ p hp⟩,
    chunksGo_dropLast _ _ (Nat.le_refl _), ?_, ?_, ?_⟩
  · intro hmem
    rcases List.mem_append.mp hmem with h | h
    · rcases mem_pyJoin h with h2 | ⟨p, hp, hc⟩
      · simp at h2
      · exact eq_not_mem_alphabet
          (hmemU '=' (chunksGo_mem_subset _ _ p hp '=' hc))
    · simp at h
  · refine splitOnChar_pyJoin_le _ ?_
    intro p hp
    refine ⟨fun c hc hcn => nl_not_mem_alphabet
      (hcn ▸ hmemU c (chunksGo_mem_subset _ _ p hp c hc)),
      chunksGo_mem_length _ _ p hp⟩
  · intro h
    subst h
    decide

/-- Witness for C1 at the byte sequence of the ASCII text hello. -/
theorem c1_chunk_encoder_witness :
    (∀ b ∈ [104, 101, 108, 108, 111], b < 256) ∧
    (b64_strip_and_chunk [104, 101, 108, 108, 111] =
      pyJoin ['\n']
        (chunks76 (rstripSet ['='] (b64encode [104, 101, 108, 108, 111]))) ++ ['\n'] ∧
    (chunks76 (rstripSet ['='] (b64encode [104, 101, 108, 108, 111]))).flatten =
      rstripSet ['='] (b64encode [104, 101, 108, 108, 111]) ∧
    (∀ p ∈ chunks76 (rstripSet ['='] (b64encode [104, 101, 108, 108, 111])),
      p.length ≤ 76 ∧ p ≠ []) ∧
    (∀ p ∈ (chunks76 (rstripSet ['='] (b64encode [104, 101, 108, 108, 111]))).dropLast,
      p.length = 76) ∧
    '=' ∉ b64_strip_and_chunk [104, 101, 108, 108, 111] ∧
    (∀ l ∈ splitOnChar '\n' (b64_strip_and_chunk [104, 101, 108, 108, 111]),
      l.length ≤ 76) ∧
    ([104, 101, 108, 108, 111] = ([] : List Nat) →
      b64_strip_and_chunk [104, 101, 108, 108, 111] = ['\n'])) :=
  ⟨by decide, c1_chunk_encoder [104, 101, 108, 108, 111] (by decide)⟩

/-- C2 counterexample.  The claim's concrete example is wrong about the
code: escaping the string a=b;c#d backslash e newline f does not put
four backslashes between d and e — the single input backslash is
doubled, giving two. -/
theorem c2_escaper_counterexample :
    escape_ffmeta ("a=b;c#d\\e\nf".toList) ≠
      ("a\\=b\\;c\\#d\\\\\\\\e\\\nf".toList) := by
  decide

/-- C2 (amended).  The Metadata Escaper applies the five global
replacements in the stated order; equivalently it maps each character
independently (backslash to double backslash, then escaped specials,
newline to backslash plus real newline, all other characters
unchanged); escaping the 11-character string a=b;c#d backslash e
newline f yields a=b;c#d with escapes, TWO backslashes, e, backslash,
real newline, f. -/
theorem c2_escaper (s : List Char) :
    escape_ffmeta s = (s.map escChar).flatten ∧
    escape_ffmeta ("a=b;c#d\\e\nf".toList) = ("a\\=b\\;c\\#d\\\\e\\\nf".toList) :=
  ⟨escape_ffmeta_chars s, by decide⟩

/-- C3.  The Metadata Document Builder renders the header line and one
KEY=escapedValue line per pair in the given order, each line terminated
by a single newline (equivalently: joined with newlines plus one final
newline), with no deduplication or reordering; the single pair
TITLE/Glyph renders exactly the ffmetadata header, a newline,
TITLE=Glyph and a final newline. -/
theorem c3_document_builder :
    (∀ pairs : List (List Char × List Char),
      buildFFMeta pairs =
        ((ffmetaHeader ::
          pairs.map fun kv => kv.1 ++ '=' :: escape_ffmeta kv.2).map
            fun l => l ++ ['\n']).flatten) ∧
    buildFFMeta [(("TITLE".toList), ("Glyph".toList))] =
      (";FFMETADATA1\nTITLE=Glyph\n".toList) := by
  constructor
  · intro pairs
    exact pyJoin_terminated ['\n'] ffmetaHeader _
  · decide

/-- C4.  For every non-empty input text the CSV Normalizer equals the
claim's description (split into lines discarding terminators, strip
trailing commas, spaces and tabs, append one comma per line, join with
CR LF, append one trailing CR LF); a,b,c normalizes to a,b,c, CRLF, and
x, CRLF y normalizes to x, CRLF y, CRLF without duplicating the
existing trailing comma. -/
theorem c4_csv_normalizer (t : List Char) (ht : t ≠ []) :
    normalizeCSV t = normalizeCSV_spec t ∧
    normalizeCSV ("a,b,c".toList) = ("a,b,c,\r\n".toList) ∧
    normalizeCSV ("x,\r\ny".toList) = ("x,\r\ny,\r\n".toList) :=
  ⟨normalizeCSV_eq_spec t, by decide, by decide⟩

/-- Witness for C4 at the one-character input a. -/
theorem c4_csv_normalizer_witness :
    (("a".toList) ≠ ([] : List Char)) ∧
    (normalizeCSV ("a".toList) = normalizeCSV_spec ("a".toList) ∧
    normalizeCSV ("a,b,c".toList) = ("a,b,c,\r\n".toList) ∧
    normalizeCSV ("x,\r\ny".toList) = ("x,\r\ny,\r\n".toList)) :=
  ⟨by decide, c4_csv_normalizer ("a".toList) (by decide)⟩

/-- C5 counterexample.  On the empty input the normalizer does not
produce comma CR LF: Python splits the empty string into zero lines, so
no comma is appended anywhere. -/
theorem c5_empty_counterexample :
    encodeUtf8 (normalizeCSV []) ≠ [44, 13, 10] := by
  decide

/-- C5 (amended).  For the empty string the CSV Normalizer produces the
UTF-8 bytes of CR LF alone (no comma): splitting the empty string
yields zero lines, so the output is just the final CR LF terminator. -/
theorem c5_empty_input : encodeUtf8 (normalizeCSV []) = [13, 10] := by
  decide

/-- C6.  Round-trip: for every byte sequence B, removing the newlines
from the Chunk Encoder's output, restoring the base64 padding
appropriate to the length, and base64-decoding yields exactly B. -/
theorem c6_roundtrip (B : List Nat) (hB : ∀ b ∈ B, b < 256) :
    b64decode (restoreB64Pad (removeNewlines (b64_strip_and_chunk B))) = B := by
  obtain ⟨hmemU, hpadU⟩ := rstrip_b64encode B hB
  have hchars : ∀ p ∈ chunks76 (rstripSet ['='] (b64encode B)), ∀ c ∈ p, c ≠ '\n' :=
    fun p hp c hc hcn =>
      nl_not_mem_alphabet (hcn ▸ hmemU c (chunks76_mem_subset hp c hc))
  have h1 : removeNewlines (b64_strip_and_chunk B) =
      rstripSet ['='] (b64encode B) := by
    rw [removeNewlines, b64_strip_and_chunk,
      filter_pyJoin_nl (chunks76 (rstripSet ['='] (b64encode B))) hchars,
      chunks76_flatten]
  rw [h1, restoreB64Pad, hpadU]
  exact b64decode_b64encode B hB

/-- Witness for C6 at the byte sequence of the ASCII text hello. -/
theorem c6_roundtrip_witness :
    (∀ b ∈ [104, 101, 108, 108, 111], b < 256) ∧
    b64decode (restoreB64Pad (removeNewlines
      (b64_strip_and_chunk [104, 101, 108, 108, 111]))) =
      [104, 101, 108, 108, 111] :=
  ⟨by decide, c6_roundtrip [104, 101, 108, 108, 111] (by decide)⟩

/-- C7 counterexample.  Applying the normalizer twice does not always
equal applying it once: the empty input normalizes to CR LF, which
re-normalizes to comma CR LF.  Also, a text whose single line ends with
exactly one trailing comma and CR LF (the claim's normalized form) need
not be a fixed point: a-space-comma CRLF loses its space. -/
theorem c7_idempotence_counterexample :
    normalizeCSV (normalizeCSV []) ≠ normalizeCSV [] ∧
    normalizeCSV ("a ,\r\n".toList) ≠ ("a ,\r\n".toList) := by
  decide

/-- C7 (amended).  For every non-empty input the normalizer is
idempotent: normalizing a second time yields the same text, so any
normalizer output for a non-empty input is a fixed point. -/
theorem c7_normalizer_idempotent (t : List Char) (ht : t ≠ []) :
    normalizeCSV (normalizeCSV t) = normalizeCSV t :=
  normalizeCSV_idem ht

/-- Witness for C7 at the one-character input a. -/
theorem c7_normalizer_idempotent_witness :
    (("a".toList) ≠ ([] : List Char)) ∧
    normalizeCSV (normalizeCSV ("a".toList)) = normalizeCSV ("a".toList) :=
  ⟨by decide, c7_normalizer_idempotent ("a".toList) (by decide)⟩

/-- C8 counterexample.  Chunk-encoding the zlib compression of the
empty byte sequence is not a bare newline: the zlib stream of empty
input is 8 bytes (header, empty deflate block, Adler-32 of empty), so
the block has one 11-character data line. -/
theorem c8_empty_compress_counterexample :
    b64_strip_and_chunk zlib_compress_empty ≠ ['\n'] := by
  decide

/-- C8 (amended).  Compressing the empty byte sequence succeeds and
yields the 8-byte zlib stream 78 DA 03 00 00 00 00 01; chunk-encoding
it yields the single data line eNoDAAAAAAE followed by one newline.  A
bare-newline block is what chunk-encoding the empty byte sequence
itself produces. -/
theorem c8_empty_compress :
    zlib_compress_empty = [120, 218, 3, 0, 0, 0, 0, 1] ∧
    b64_strip_and_chunk zlib_compress_empty = ("eNoDAAAAAAE\n".toList) ∧
    b64_strip_and_chunk [] = ['\n'] := by
  decide

/-- C9.  The /embed handler's cleanup does not release every temporary
file: the finally block unlinks only the saved upload, so the
intermediate audio file is left behind on every exit path (and the
output container file on every path that creates it) — evaluated here
on the run where the transcode fails and on the fully successful
run. -/
theorem c9_temp_file_leak :
    embedLeakedFiles ⟨true, false, false⟩ = [TempFile.tmpOgg] ∧
    embedLeakedFiles ⟨false, true, true⟩ = [TempFile.tmpOgg, TempFile.outPath] ∧
    embedDeletedFiles ⟨true, false, false⟩ = [TempFile.tmpIn] := by
  decide

/-- C10.  If the title form field is absent or empty, the /embed
handler uses the literal string Glyph as the TITLE tag value in the
metadata mapping; any non-empty title string is used verbatim. -/
theorem c10_title_default (s a c : List Char) (hs : s ≠ []) :
    embedTitle none = ("Glyph".toList) ∧
    embedTitle (some []) = ("Glyph".toList) ∧
    embedTitle (some s) = s ∧
    (embed_metadata (embedTitle none) a c).lookup ("TITLE".toList) =
      some ("Glyph".toList) ∧
    (embed_metadata (embedTitle (some s)) a c).lookup ("TITLE".toList) = some s := by
  have h3 : embedTitle (some s) = s := by simp [embedTitle, hs]
  refine ⟨rfl, by simp [embedTitle], h3, ?_, ?_⟩
  · simp [embed_metadata, List.lookup, embedTitle]
  · simp [embed_metadata, List.lookup, h3]

/-- Witness for C10 at the one-character title x with empty encoded
tag values. -/
theorem c10_title_default_witness :
    (("x".toList) ≠ ([] : List Char)) ∧
    (embedTitle none = ("Glyph".toList) ∧
    embedTitle (some []) = ("Glyph".toList) ∧
    embedTitle (some ("x".toList)) = ("x".toList) ∧
    (embed_metadata (embedTitle none) [] []).lookup ("TITLE".toList) =
      some ("Glyph".toList) ∧
    (embed_metadata (embedTitle (some ("x".toList))) [] []).lookup ("TITLE".toList) =
      some ("x".toList)) :=
  ⟨by decide, c10_title_default ("x".toList) [] [] (by decide)⟩
